import Mathlib

/-!
Verification of the TwitterSentimentDashboard repository.

The development shallowly embeds the three program components the claims
are about, working over `List Char` as the model of Python strings
(ASCII fragment; the regular-expression character classes of the source
are modelled over the ASCII range):

* `preprocess_tweet` (src/preprocess.py): the regex cleaning pipeline.
  The external NLTK WordNet lemmatizer is an external collaborator and is
  passed as an explicit function parameter.
* `process_dataset` (src/process_dataset.py): sampling with a fixed seed,
  per-row normalize / classify / upsert with per-row failure isolation.
  The transformers classifier is an oracle parameter returning
  `Option (label, score)`, where `none` models a raised exception; the
  wall clock behind `time.time()` is an explicit call-indexed parameter.
* `fetch_sqlite_data` (src/app.py): filtered read over the SQLite table,
  modelled as a list of rows with SQLite's documented `LIKE` and
  `ORDER BY ... DESC LIMIT` semantics.
-/

/-! ### Character model (ASCII fragment of Python's regex classes) -/

/-- Python regex `\s` over the ASCII range: space, tab, newline,
carriage return, vertical tab, form feed. -/
def isWsChar (c : Char) : Bool :=
  c.toNat == 32 || c.toNat == 9 || c.toNat == 10 ||
  c.toNat == 13 || c.toNat == 11 || c.toNat == 12

/-- Python regex `\w` over the ASCII range: digits, letters, underscore. -/
def isWordChar (c : Char) : Bool :=
  (48 ≤ c.toNat && c.toNat ≤ 57) || (65 ≤ c.toNat && c.toNat ≤ 90) ||
  (97 ≤ c.toNat && c.toNat ≤ 122) || c.toNat == 95

theorem toLower_toNat (c : Char) :
    (c.toLower).toNat = if 65 ≤ c.toNat ∧ c.toNat ≤ 90 then c.toNat + 32 else c.toNat := by
  unfold Char.toLower
  split
  · rename_i h
    rw [if_pos (by omega)]
    have hv : (c.toNat + 32).isValidChar := Or.inl (by omega)
    show (Char.ofNat (c.toNat + 32)).toNat = c.toNat + 32
    unfold Char.ofNat
    rw [dif_pos hv]
    rfl
  · rename_i h
    rw [if_neg (by omega)]

theorem toLower_eq_self (c : Char) (h : ¬(65 ≤ c.toNat ∧ c.toNat ≤ 90)) : c.toLower = c := by
  unfold Char.toLower
  rw [if_neg (by omega)]

theorem toLower_idem (c : Char) : c.toLower.toLower = c.toLower := by
  by_cases h : 65 ≤ c.toNat ∧ c.toNat ≤ 90
  · apply toLower_eq_self
    rw [toLower_toNat, if_pos h]
    omega
  · rw [toLower_eq_self c h]
    exact toLower_eq_self c h

theorem isWordChar_toLower (c : Char) (h : isWordChar c = true) :
    isWordChar c.toLower = true := by
  simp only [isWordChar, Bool.or_eq_true, Bool.and_eq_true, decide_eq_true_eq,
    beq_iff_eq, toLower_toNat] at *
  split <;> omega

theorem isWsChar_toLower_eq (c : Char) (h : isWsChar c = true) : c.toLower = c := by
  simp only [isWsChar, Bool.or_eq_true, beq_iff_eq] at h
  apply toLower_eq_self
  omega

theorem not_isWsChar_of_isWordChar (c : Char) (h : isWordChar c = true) :
    isWsChar c = false := by
  simp only [isWordChar, Bool.or_eq_true, Bool.and_eq_true, decide_eq_true_eq,
    beq_iff_eq] at h
  simp only [isWsChar, Bool.or_eq_false_iff, beq_eq_false_iff_ne]
  omega

/-! ### Text normalizer: `preprocess_tweet` (src/preprocess.py)

The cleaning steps of the source, in order:
1. `re.sub(r'http\S+|www\S+|https\S+', '', t)`
2. `re.sub(r'@\w+|#\w+', '', t)`
3. `re.sub(r'[^\w\s]', '', t)`
4. `t.lower()`
5. `' '.join(lemmatizer.lemmatize(tok) for tok in word_tokenize(t))`
6. `re.sub(r'\s+', ' ', t).strip()`

For step 5, after step 3 the text consists of word characters and
whitespace only, on which NLTK's `word_tokenize` coincides with
whitespace splitting; the WordNet lemmatizer itself is external and is a
function parameter `lem`. -/

/-- Length matched at the head of `l` by `http\S+|www\S+|https\S+`
(0 when no alternative matches there).  `\S+` is greedy, so a match
extends to the next whitespace character; the `https` alternative is
subsumed by the `http` one. -/
def urlMatchLen (l : List Char) : Nat :=
  if ['h', 't', 't', 'p'].isPrefixOf l then
    let run := (l.drop 4).takeWhile (fun c => !isWsChar c)
    if run.isEmpty then 0 else 4 + run.length
  else if ['w', 'w', 'w'].isPrefixOf l then
    let run := (l.drop 3).takeWhile (fun c => !isWsChar c)
    if run.isEmpty then 0 else 3 + run.length
  else 0

/-- Length matched at the head of `l` by `@\w+|#\w+` (0 when neither
alternative matches there). -/
def mentionMatchLen (l : List Char) : Nat :=
  match l with
  | [] => 0
  | c :: cs =>
    if c = '@' || c = '#' then
      let run := cs.takeWhile isWordChar
      if run.isEmpty then 0 else 1 + run.length
    else 0

/-- `re.sub(pat, '', t)` for a pattern whose head-match length is
computed by `m`: scan left to right, removing each leftmost match and
resuming after it.  The fuel argument bounds the recursion; callers pass
the length of the list, which always suffices. -/
def scanRemove (m : List Char → Nat) : Nat → List Char → List Char
  | 0, l => l
  | _ + 1, [] => []
  | fuel + 1, c :: cs =>
    let n := m (c :: cs)
    if n = 0 then c :: scanRemove m fuel cs
    else scanRemove m fuel ((c :: cs).drop n)

/-- Step 1: `re.sub(r'http\S+|www\S+|https\S+', '', t)`. -/
def removeUrls (l : List Char) : List Char := scanRemove urlMatchLen l.length l

/-- Step 2: `re.sub(r'@\w+|#\w+', '', t)`. -/
def removeMentions (l : List Char) : List Char := scanRemove mentionMatchLen l.length l

/-- Step 3: `re.sub(r'[^\w\s]', '', t)`. -/
def keepWordWs (l : List Char) : List Char :=
  l.filter (fun c => isWordChar c || isWsChar c)

/-- Whitespace tokenization (fuelled; callers pass the list length). -/
def splitWsGo : Nat → List Char → List (List Char)
  | 0, _ => []
  | _ + 1, [] => []
  | fuel + 1, c :: cs =>
    if isWsChar c then splitWsGo fuel cs
    else (c :: cs.takeWhile (fun d => !isWsChar d)) ::
      splitWsGo fuel (cs.dropWhile (fun d => !isWsChar d))

/-- The model of `word_tokenize` on punctuation-free text: the maximal
whitespace-free tokens, in order. -/
def wsTokens (l : List Char) : List (List Char) := splitWsGo l.length l

/-- `' '.join(ts)`. -/
def joinTok : List (List Char) → List Char
  | [] => []
  | [t] => t
  | t :: ts => t ++ ' ' :: joinTok ts

/-- `re.sub(r'\s+', ' ', t)`: each maximal whitespace run becomes one
space.  The flag records whether the previous character was whitespace. -/
def collapseGo : Bool → List Char → List Char
  | _, [] => []
  | prevWs, c :: cs =>
    if isWsChar c then
      if prevWs then collapseGo true cs else ' ' :: collapseGo true cs
    else c :: collapseGo false cs

/-- Step 6, first half: `re.sub(r'\s+', ' ', t)`. -/
def collapseWs (l : List Char) : List Char := collapseGo false l

/-- Step 6, second half: `str.strip()`. -/
def stripWs (l : List Char) : List Char :=
  ((l.dropWhile isWsChar).reverse.dropWhile isWsChar).reverse

/-- `preprocess_tweet` (src/preprocess.py lines 29-46), with the external
WordNet lemmatizer as the parameter `lem`. -/
def preprocess_tweet (lem : List Char → List Char) (tweet : List Char) : List Char :=
  stripWs (collapseWs (joinTok
    ((wsTokens ((keepWordWs (removeMentions (removeUrls tweet))).map Char.toLower)).map lem)))

/-- Whether some substring of `l` matches `http\S+|www\S+|https\S+`. -/
def hasUrlSub (l : List Char) : Bool := l.tails.any (fun t => urlMatchLen t != 0)

/-- Whether some substring of `l` matches `@\w+|#\w+`. -/
def hasMentionSub (l : List Char) : Bool := l.tails.any (fun t => mentionMatchLen t != 0)

example : preprocess_tweet id "Check https://t.co/x out @bob #cool!!".data = "check out".data := by decide
example : preprocess_tweet id "HTTPx".data = "httpx".data := by decide
example : hasUrlSub (preprocess_tweet id "HTTPx".data) = true := by decide
example : preprocess_tweet id (preprocess_tweet id "WWWx".data) = [] := by decide

/-! ### Tweet store: schema and upsert (src/process_dataset.py lines 31-39, 88-92)

One table `tweets(TweetID TEXT PRIMARY KEY, Text, Sentiment, Score REAL,
Timestamp INTEGER)`, modelled as a list of rows.  `INSERT OR REPLACE`
on the primary key deletes any row with the same `TweetID` and inserts
the new one; scores (Python floats / SQLite REAL) are modelled as
rationals, timestamps (epoch seconds) as integers. -/

structure Record where
  tweetId : List Char
  text : List Char
  sentiment : List Char
  score : Rat
  timestamp : Int
deriving DecidableEq

/-- `INSERT OR REPLACE INTO tweets ... VALUES (?, ?, ?, ?, ?)` keyed by
the `TweetID` primary key. -/
def upsert (db : List Record) (r : Record) : List Record :=
  db.filter (fun q => q.tweetId ≠ r.tweetId) ++ [r]

/-! ### Dataset pipeline: `process_dataset` (src/process_dataset.py lines 62-108) -/

/-- One sampled CSV row: the stable identifier (`row['id']`, already
stringified) and the raw tweet text (`row['text']`). -/
structure Row where
  id : List Char
  text : List Char
deriving DecidableEq

/-- `result['label'].replace('LABEL_0','NEGATIVE').replace('LABEL_1','NEUTRAL').replace('LABEL_2','POSITIVE')`.
`pyReplace` models Python `str.replace`: replace every non-overlapping
occurrence, scanning left to right. -/
def replaceAllGo (old new : List Char) : Nat → List Char → List Char
  | 0, l => l
  | _ + 1, [] => []
  | fuel + 1, c :: cs =>
    if old.isPrefixOf (c :: cs) ∧ old ≠ [] then
      new ++ replaceAllGo old new fuel ((c :: cs).drop old.length)
    else c :: replaceAllGo old new fuel cs

def pyReplace (s old new : List Char) : List Char := replaceAllGo old new s.length s

def labelMap (label : List Char) : List Char :=
  pyReplace (pyReplace (pyReplace label "LABEL_0".data "NEGATIVE".data)
    "LABEL_1".data "NEUTRAL".data) "LABEL_2".data "POSITIVE".data

/-- State threaded through the per-row loop: the SQLite table, the
in-memory `tweets_data` list, and the index of the next `time.time()`
call (the wall clock is a function from call index to epoch seconds). -/
structure PState where
  db : List Record
  out : List Record
  clockIdx : Nat
deriving DecidableEq

/-- The body of the per-row loop (src/process_dataset.py lines 75-108).
`nlp` is the external classifier oracle; `none` models a raised
exception, which the `except` clause turns into a logged skip.  On
success the code calls `int(time.time())` twice: once for the SQL
`INSERT OR REPLACE` and once for the dict appended to `tweets_data`. -/
def processRow (nlp : List Char → Option (List Char × Rat)) (clock : Nat → Int)
    (lem : List Char → List Char) (st : PState) (row : Row) : PState :=
  let cleaned := preprocess_tweet lem row.text
  if cleaned = [] then st
  else
    match nlp cleaned with
    | none => st
    | some (label, score) =>
      let sentiment := labelMap label
      let stored : Record := ⟨row.id, cleaned, sentiment, score, clock st.clockIdx⟩
      let appended : Record := ⟨row.id, cleaned, sentiment, score, clock (st.clockIdx + 1)⟩
      ⟨upsert st.db stored, st.out ++ [appended], st.clockIdx + 2⟩

/-- A linear congruential step; the pseudo-random source behind the
external `df.sample(..., random_state=42)` call. -/
def lcgNext (s : Nat) : Nat := (s * 1103515245 + 12345) % 2147483648

/-- Model of the external `pandas.DataFrame.sample(n, random_state=seed)`
draw without replacement: a pure function of the seed, the requested
size and the frame, drawing one remaining row per pseudo-random index.
Its only contract used by the source is that it deterministically
selects `n` of the rows. -/
def sampleGo : Nat → Nat → List Row → List Row
  | _, 0, _ => []
  | _, _ + 1, [] => []
  | s, n + 1, r :: pool =>
    let i := s % (r :: pool).length
    (r :: pool).getD i r :: sampleGo (lcgNext s) n ((r :: pool).eraseIdx i)

/-- `df.sample(n=min(max_tweets, len(df)), random_state=42)`
(src/process_dataset.py line 63). -/
def sampledRows (src : List Row) (maxTweets : Nat) : List Row :=
  sampleGo (lcgNext 42) (min maxTweets src.length) src

/-- `process_dataset` (src/process_dataset.py): sample the corpus with
the fixed seed, then run the per-row loop over the sampled rows,
starting from the table `db0` found in the database file and an empty
`tweets_data` list. -/
def process_dataset (nlp : List Char → Option (List Char × Rat)) (clock : Nat → Int)
    (lem : List Char → List Char) (src : List Row) (maxTweets : Nat)
    (db0 : List Record) : PState :=
  (sampledRows src maxTweets).foldl (processRow nlp clock lem) ⟨db0, [], 0⟩

/-- A sampled row that the loop skips at `if not cleaned_text: continue`. -/
def rowEmpty (lem : List Char → List Char) (row : Row) : Bool :=
  preprocess_tweet lem row.text == []

/-- A sampled row whose classifier call raises (is skipped by the
`except` clause). -/
def rowErr (nlp : List Char → Option (List Char × Rat))
    (lem : List Char → List Char) (row : Row) : Bool :=
  !rowEmpty lem row && (nlp (preprocess_tweet lem row.text)).isNone

/-! ### Dashboard read: `fetch_sqlite_data` (src/app.py lines 31-55)

`SELECT * FROM tweets [WHERE Sentiment = ? [AND] Text LIKE '%kw%']
ORDER BY Timestamp DESC LIMIT limit`.  SQLite's `LIKE` is
case-insensitive for the ASCII letters, `%` matches any sequence and
`_` any single character; `=` on TEXT is exact. -/

/-- SQLite `LIKE` character comparison: ASCII case folding. -/
def likeCharEq (p c : Char) : Bool := p.toLower == c.toLower

/-- Fuelled SQLite `LIKE` pattern evaluator (pattern, then text).
Callers pass fuel larger than the sum of the lengths, which always
suffices since every step shortens the pattern or the text. -/
def likeGo : Nat → List Char → List Char → Bool
  | 0, _, _ => false
  | _ + 1, [], t => t.isEmpty
  | fuel + 1, p :: ps, t =>
    if p = '%' then
      likeGo fuel ps t ||
        (match t with
         | [] => false
         | _ :: ts => likeGo fuel (p :: ps) ts)
    else
      match t with
      | [] => false
      | c :: ts => (p = '_' || likeCharEq p c) && likeGo fuel ps ts

/-- `pattern LIKE text` with sufficient fuel. -/
def likeMatch (p t : List Char) : Bool := likeGo (p.length + t.length + 1) p t

/-- The keyword condition `Text LIKE ?` with parameter `f"%{keyword}%"`. -/
def sqlLikeContains (kw text : List Char) : Bool :=
  likeMatch ('%' :: (kw ++ ['%'])) text

/-- Python truthiness of the optional filter arguments: `None` and the
empty string are falsy (`if sentiment_filter:` / `if keyword:`). -/
def optTruthy : Option (List Char) → Bool
  | none => false
  | some s => !s.isEmpty

/-- The WHERE clause built by `fetch_sqlite_data`: each supplied
(truthy) filter contributes one conjunct. -/
def rowCond (sf kw : Option (List Char)) (r : Record) : Bool :=
  (!optTruthy sf || r.sentiment == sf.getD []) &&
  (!optTruthy kw || sqlLikeContains (kw.getD []) r.text)

/-- `ORDER BY Timestamp DESC`: insert into a descending-by-timestamp list. -/
def insertByTs (r : Record) : List Record → List Record
  | [] => [r]
  | q :: qs => if q.timestamp ≤ r.timestamp then r :: q :: qs else q :: insertByTs r qs

def sortDescTs : List Record → List Record
  | [] => []
  | r :: rs => insertByTs r (sortDescTs rs)

/-- `fetch_sqlite_data` (src/app.py lines 31-55): filter, order by
descending timestamp, and truncate to `limit` rows. -/
def fetch_sqlite_data (db : List Record) (limit : Nat)
    (sf kw : Option (List Char)) : List Record :=
  (sortDescTs (db.filter (rowCond sf kw))).take limit

/-- Case-insensitive (ASCII) prefix comparison. -/
def ciPre : List Char → List Char → Bool
  | [], _ => true
  | _ :: _, [] => false
  | k :: ks, c :: cs => likeCharEq k c && ciPre ks cs

/-- `text` contains `kw` as a substring up to ASCII case folding. -/
def containsCI (text kw : List Char) : Bool := text.tails.any (ciPre kw)

example : labelMap "LABEL_2".data = "POSITIVE".data := by decide
example : sqlLikeContains "DAY".data "great day".data = true := by decide
example : sqlLikeContains "dax".data "great day".data = false := by decide
example : containsCI "great day".data "DAY".data = true := by decide
example :
    fetch_sqlite_data
      [⟨"1".data, "great day".data, "POSITIVE".data, mkRat 9 10, 10⟩,
       ⟨"2".data, "bad day".data, "NEGATIVE".data, mkRat 8 10, 20⟩] 10
      (some "POSITIVE".data) none =
      [⟨"1".data, "great day".data, "POSITIVE".data, mkRat 9 10, 10⟩] := by decide
example :
    (process_dataset (fun _ => some ("LABEL_2".data, 1)) (fun n => (n : Int)) id
      [⟨"7".data, "good".data⟩] 1 []).out =
      [⟨"7".data, "good".data, "POSITIVE".data, 1, 1⟩] := by decide

/-! ### Normalizer lemmas -/

theorem takeWhile_append_all {p : Char → Bool} :
    ∀ {t r : List Char}, (∀ c ∈ t, p c = true) →
    (t ++ r).takeWhile p = t ++ r.takeWhile p := by
  intro t
  induction t with
  | nil => intro r _; rfl
  | cons c t ih =>
    intro r h
    have hc : p c = true := h c (by simp)
    simp only [List.cons_append, List.takeWhile_cons, hc, if_true]
    rw [ih (fun d hd => h d (by simp [hd]))]

theorem dropWhile_append_all {p : Char → Bool} :
    ∀ {t r : List Char}, (∀ c ∈ t, p c = true) →
    (t ++ r).dropWhile p = r.dropWhile p := by
  intro t
  induction t with
  | nil => intro r _; rfl
  | cons c t ih =>
    intro r h
    have hc : p c = true := h c (by simp)
    simp only [List.cons_append, List.dropWhile_cons, hc, if_true]
    exact ih (fun d hd => h d (by simp [hd]))

theorem map_eq_self_of_fix {f : Char → Char} :
    ∀ {l : List Char}, (∀ c ∈ l, f c = c) → l.map f = l := by
  intro l
  induction l with
  | nil => intro _; rfl
  | cons c l ih =>
    intro h
    simp only [List.map_cons, h c (by simp), ih (fun d hd => h d (by simp [hd]))]

/-- A scan that finds no match anywhere leaves the text unchanged,
whatever the fuel. -/
theorem scanRemove_of_noMatch (m : List Char → Nat) :
    ∀ (fuel : Nat) (l : List Char),
    l.tails.any (fun t => m t != 0) = false → scanRemove m fuel l = l := by
  intro fuel
  induction fuel with
  | zero => intro l _; rfl
  | succ fuel ih =>
    intro l h
    match l with
    | [] => rfl
    | c :: cs =>
      rw [List.tails_cons, List.any_cons, Bool.or_eq_false_iff] at h
      have h0 : m (c :: cs) = 0 := by
        have := h.1
        simpa using this
      simp only [scanRemove, h0, if_true, reduceIte]
      rw [ih cs h.2]

theorem splitWsGo_fuel_succ :
    ∀ (fuel : Nat) (l : List Char), l.length ≤ fuel →
    splitWsGo (fuel + 1) l = splitWsGo fuel l := by
  intro fuel
  induction fuel with
  | zero =>
    intro l hl
    have : l = [] := List.length_eq_zero.mp (Nat.le_zero.mp hl)
    subst this; rfl
  | succ fuel ih =>
    intro l hl
    match l with
    | [] => rfl
    | c :: cs =>
      have hcs : cs.length ≤ fuel := by
        simp only [List.length_cons] at hl; omega
      by_cases hw : isWsChar c
      · simp only [splitWsGo, hw, if_true, reduceIte]
        exact ih cs hcs
      · simp only [splitWsGo, hw, Bool.false_eq_true, if_false, reduceIte]
        have hdrop : (cs.dropWhile (fun d => !isWsChar d)).length ≤ fuel :=
          le_trans (List.dropWhile_sublist _).length_le hcs
        rw [ih _ hdrop]

theorem splitWsGo_eq_wsTokens :
    ∀ (fuel : Nat) (l : List Char), l.length ≤ fuel →
    splitWsGo fuel l = wsTokens l := by
  intro fuel
  induction fuel with
  | zero =>
    intro l hl
    have : l = [] := List.length_eq_zero.mp (Nat.le_zero.mp hl)
    subst this; rfl
  | succ fuel ih =>
    intro l hl
    by_cases hle : l.length ≤ fuel
    · rw [splitWsGo_fuel_succ fuel l hle, ih l hle]
    · have : l.length = fuel + 1 := by omega
      unfold wsTokens
      rw [this]

theorem wsTokens_cons_ws {c : Char} {cs : List Char} (h : isWsChar c = true) :
    wsTokens (c :: cs) = wsTokens cs := by
  show splitWsGo (c :: cs).length (c :: cs) = _
  simp only [List.length_cons, splitWsGo, h, if_true, reduceIte]
  exact splitWsGo_eq_wsTokens _ _ (le_refl _)

theorem wsTokens_cons_nonws {c : Char} {cs : List Char} (h : isWsChar c = false) :
    wsTokens (c :: cs) =
      (c :: cs.takeWhile (fun d => !isWsChar d)) ::
        wsTokens (cs.dropWhile (fun d => !isWsChar d)) := by
  show splitWsGo (c :: cs).length (c :: cs) = _
  simp only [List.length_cons, splitWsGo, h, Bool.false_eq_true, if_false, reduceIte]
  rw [splitWsGo_eq_wsTokens _ _ (le_trans (List.dropWhile_sublist _).length_le (le_refl _))]

/-- Tokens produced by whitespace splitting are nonempty, contain no
whitespace, and draw their characters from the input. -/
theorem splitWsGo_props :
    ∀ (fuel : Nat) (l t : List Char), t ∈ splitWsGo fuel l →
    t ≠ [] ∧ ∀ c ∈ t, isWsChar c = false ∧ c ∈ l := by
  intro fuel
  induction fuel with
  | zero => intro l t ht; simp [splitWsGo] at ht
  | succ fuel ih =>
    intro l t ht
    match l with
    | [] => simp [splitWsGo] at ht
    | c :: cs =>
      by_cases hw : isWsChar c
      · simp only [splitWsGo, hw, if_true, reduceIte] at ht
        obtain ⟨hne, hall⟩ := ih cs t ht
        exact ⟨hne, fun d hd => ⟨(hall d hd).1, List.mem_cons_of_mem c (hall d hd).2⟩⟩
      · simp only [splitWsGo, hw, Bool.false_eq_true, if_false, reduceIte,
          List.mem_cons] at ht
        rcases ht with rfl | ht
        · refine ⟨by simp, fun d hd => ?_⟩
          rcases List.mem_cons.mp hd with rfl | hd
          · exact ⟨by simpa using hw, by simp⟩
          · have hp := List.mem_takeWhile_imp hd
            have hmem : d ∈ cs := (List.takeWhile_sublist _).subset hd
            exact ⟨by simpa using hp, List.mem_cons_of_mem c hmem⟩
        · obtain ⟨hne, hall⟩ := ih _ t ht
          refine ⟨hne, fun d hd => ⟨(hall d hd).1, ?_⟩⟩
          have : d ∈ cs := (List.dropWhile_sublist _).subset (hall d hd).2
          exact List.mem_cons_of_mem c this

theorem wsTokens_props {l t : List Char} (ht : t ∈ wsTokens l) :
    t ≠ [] ∧ ∀ c ∈ t, isWsChar c = false ∧ c ∈ l :=
  splitWsGo_props l.length l t ht

/-- Tokens fed to `joinTok`: nonempty and whitespace-free. -/
def goodToks (ts : List (List Char)) : Prop :=
  ∀ t ∈ ts, t ≠ [] ∧ ∀ c ∈ t, isWsChar c = false

theorem mem_joinTok : ∀ {ts : List (List Char)} {c : Char},
    c ∈ joinTok ts → c = ' ' ∨ ∃ t ∈ ts, c ∈ t := by
  intro ts
  induction ts with
  | nil => intro c hc; simp [joinTok] at hc
  | cons t ts ih =>
    intro c hc
    match ts with
    | [] =>
      simp only [joinTok] at hc
      exact Or.inr ⟨t, by simp, hc⟩
    | t₂ :: ts₂ =>
      simp only [joinTok, List.mem_append, List.mem_cons] at hc
      rcases hc with hc | hc | hc
      · exact Or.inr ⟨t, by simp, hc⟩
      · exact Or.inl hc
      · rcases ih hc with h | ⟨u, hu, hcu⟩
        · exact Or.inl h
        · exact Or.inr ⟨u, by simp [hu], hcu⟩

theorem joinTok_head : ∀ (t : List Char) (ts : List (List Char)), t ≠ [] →
    ∃ c rest, joinTok (t :: ts) = c :: rest ∧ c ∈ t := by
  intro t ts ht
  match t, ts with
  | c :: t₁, [] => exact ⟨c, t₁, by simp [joinTok], by simp⟩
  | c :: t₁, t₂ :: ts₂ =>
    exact ⟨c, t₁ ++ ' ' :: joinTok (t₂ :: ts₂), by simp [joinTok], by simp⟩

theorem collapseGo_append_nonws :
    ∀ (t r : List Char), (∀ c ∈ t, isWsChar c = false) →
    collapseGo false (t ++ r) = t ++ collapseGo false r := by
  intro t
  induction t with
  | nil => intro r _; rfl
  | cons c t ih =>
    intro r h
    have hc : isWsChar c = false := h c (by simp)
    simp only [List.cons_append, collapseGo, hc, Bool.false_eq_true, if_false, reduceIte,
      List.append_eq]
    rw [ih r (fun d hd => h d (by simp [hd]))]

theorem collapseGo_true_head {l : List Char}
    (h : l = [] ∨ ∃ c rest, l = c :: rest ∧ isWsChar c = false) :
    collapseGo true l = collapseGo false l := by
  rcases h with rfl | ⟨c, rest, rfl, hc⟩
  · rfl
  · simp only [collapseGo, hc, Bool.false_eq_true, if_false, reduceIte]

theorem collapseWs_joinTok : ∀ (ts : List (List Char)), goodToks ts →
    collapseWs (joinTok ts) = joinTok ts := by
  intro ts
  induction ts with
  | nil => intro _; rfl
  | cons t ts ih =>
    intro h
    have ht := h t (by simp)
    match ts with
    | [] =>
      show collapseGo false (joinTok [t]) = joinTok [t]
      simp only [joinTok]
      have := collapseGo_append_nonws t [] ht.2
      simpa [collapseGo] using this
    | t₂ :: ts₂ =>
      have hts : goodToks (t₂ :: ts₂) := fun u hu => h u (by simp [List.mem_cons] at hu ⊢; tauto)
      show collapseGo false (joinTok (t :: t₂ :: ts₂)) = _
      simp only [joinTok]
      rw [collapseGo_append_nonws t (' ' :: joinTok (t₂ :: ts₂)) ht.2]
      have hstep : collapseGo false (' ' :: joinTok (t₂ :: ts₂)) =
          ' ' :: collapseGo true (joinTok (t₂ :: ts₂)) := by
        have hsp : isWsChar ' ' = true := by decide
        simp [collapseGo, hsp]
      rw [hstep]
      obtain ⟨c, rest, hj, hc⟩ := joinTok_head t₂ ts₂ (hts t₂ (by simp)).1
      rw [collapseGo_true_head (Or.inr ⟨c, rest, hj, (hts t₂ (by simp)).2 c hc⟩)]
      have := ih hts
      unfold collapseWs at this
      rw [this]

theorem joinTok_reverse_head : ∀ (ts : List (List Char)), goodToks ts → ts ≠ [] →
    ∃ c rest, (joinTok ts).reverse = c :: rest ∧ isWsChar c = false := by
  intro ts
  induction ts with
  | nil => intro _ h; exact absurd rfl h
  | cons t ts ih =>
    intro h _
    have ht := h t (by simp)
    match ts with
    | [] =>
      have hne : t.reverse ≠ [] := by
        simpa [List.reverse_eq_nil_iff] using ht.1
      match hrev : t.reverse with
      | [] => exact absurd hrev hne
      | c :: rest =>
        have hc : c ∈ t := by
          rw [← List.mem_reverse, hrev]; simp
        exact ⟨c, rest, by simp [joinTok, hrev], ht.2 c hc⟩
    | t₂ :: ts₂ =>
      have hts : goodToks (t₂ :: ts₂) := fun u hu => h u (by simp [List.mem_cons] at hu ⊢; tauto)
      obtain ⟨c, rest, hj, hc⟩ := ih hts (by simp)
      refine ⟨c, rest ++ ' ' :: t.reverse, ?_, hc⟩
      show (joinTok (t :: t₂ :: ts₂)).reverse = _
      simp only [joinTok, List.reverse_append, List.reverse_cons]
      rw [hj]
      simp

theorem stripWs_joinTok (ts : List (List Char)) (h : goodToks ts) :
    stripWs (joinTok ts) = joinTok ts := by
  match ts with
  | [] => rfl
  | t :: ts₂ =>
    obtain ⟨c, rest, hj, hcm⟩ := joinTok_head t ts₂ (h t (by simp)).1
    have hcw : isWsChar c = false := (h t (by simp)).2 c hcm
    obtain ⟨c', rest', hj', hc'⟩ := joinTok_reverse_head (t :: ts₂) h (by simp)
    unfold stripWs
    rw [hj, List.dropWhile_cons, hcw]
    simp only [Bool.false_eq_true, if_false, reduceIte]
    rw [← hj, hj', List.dropWhile_cons, hc']
    simp only [Bool.false_eq_true, if_false, reduceIte]
    rw [← hj', List.reverse_reverse]

theorem wsTokens_joinTok : ∀ (ts : List (List Char)), goodToks ts →
    wsTokens (joinTok ts) = ts := by
  intro ts
  induction ts with
  | nil => intro _; rfl
  | cons t ts ih =>
    intro h
    have ht := h t (by simp)
    match htt : t, ts with
    | c :: t₁, [] =>
      have hall : ∀ d ∈ t₁, (!isWsChar d) = true := by
        intro d hd
        simp [(h (c :: t₁) (by simp)).2 d (by simp [hd])]
      show wsTokens (joinTok [c :: t₁]) = [c :: t₁]
      simp only [joinTok]
      rw [wsTokens_cons_nonws ((h (c :: t₁) (by simp)).2 c (by simp))]
      rw [List.takeWhile_eq_self_iff.mpr hall]
      rw [List.dropWhile_eq_nil_iff.mpr hall]
      rfl
    | c :: t₁, t₂ :: ts₂ =>
      have hts : goodToks (t₂ :: ts₂) := fun u hu => h u (by simp [List.mem_cons] at hu ⊢; tauto)
      have hall : ∀ d ∈ t₁, (!isWsChar d) = true := by
        intro d hd
        simp [(h (c :: t₁) (by simp)).2 d (by simp [hd])]
      show wsTokens (joinTok ((c :: t₁) :: t₂ :: ts₂)) = _
      simp only [joinTok, List.cons_append]
      rw [wsTokens_cons_nonws ((h (c :: t₁) (by simp)).2 c (by simp))]
      rw [takeWhile_append_all hall, dropWhile_append_all hall]
      have hsp : (!isWsChar ' ') = false := by decide
      simp only [List.takeWhile_cons, hsp, Bool.false_eq_true, if_false, reduceIte,
        List.dropWhile_cons]
      rw [wsTokens_cons_ws (by decide)]
      rw [ih hts]
      simp

/-! ### Structure of normalizer output -/

/-- Behaviour of the external WordNet lemmatizer assumed by the claims
about `preprocess_tweet`: on a nonempty lowercase word-character token it
returns a nonempty lowercase word-character token and is idempotent.
(The identity function, i.e. running with lemmatization as a no-op,
satisfies this.) -/
def GoodLemma (lem : List Char → List Char) : Prop :=
  ∀ t : List Char, t ≠ [] → (∀ c ∈ t, isWordChar c = true ∧ c.toLower = c) →
    lem t ≠ [] ∧ (∀ c ∈ lem t, isWordChar c = true ∧ c.toLower = c) ∧ lem (lem t) = lem t

theorem GoodLemma_id : GoodLemma id := fun _ ht h => ⟨ht, h, rfl⟩

theorem goodToks_of_wordToks {ts : List (List Char)}
    (h : ∀ t ∈ ts, t ≠ [] ∧ ∀ c ∈ t, isWordChar c = true ∧ c.toLower = c) :
    goodToks ts :=
  fun t ht => ⟨(h t ht).1, fun c hc => not_isWsChar_of_isWordChar c ((h t ht).2 c hc).1⟩

/-- The output of `preprocess_tweet` is a space-join of nonempty
lowercase word-character tokens that are fixed points of the
lemmatizer. -/
theorem preprocess_structure (lem : List Char → List Char) (hlem : GoodLemma lem)
    (x : List Char) :
    ∃ ts : List (List Char),
      (∀ t ∈ ts, t ≠ [] ∧ ∀ c ∈ t, isWordChar c = true ∧ c.toLower = c) ∧
      preprocess_tweet lem x = joinTok ts ∧
      wsTokens (preprocess_tweet lem x) = ts ∧
      ts.map lem = ts := by
  set z := (keepWordWs (removeMentions (removeUrls x))).map Char.toLower with hz
  have hzchars : ∀ c ∈ z, (isWordChar c = true ∨ isWsChar c = true) ∧ c.toLower = c := by
    intro c hc
    rw [hz] at hc
    obtain ⟨d, hd, rfl⟩ := List.mem_map.mp hc
    have hdw : (isWordChar d || isWsChar d) = true := (List.mem_filter.mp hd).2
    rcases (Bool.or_eq_true _ _).mp hdw with h1 | h1
    · exact ⟨Or.inl (isWordChar_toLower d h1), toLower_idem d⟩
    · rw [isWsChar_toLower_eq d h1]
      exact ⟨Or.inr h1, isWsChar_toLower_eq d h1⟩
  have hts0p : ∀ t ∈ wsTokens z, t ≠ [] ∧ ∀ c ∈ t, isWordChar c = true ∧ c.toLower = c := by
    intro t ht
    obtain ⟨hne, hall⟩ := wsTokens_props ht
    refine ⟨hne, fun c hc => ?_⟩
    obtain ⟨hnws, hmem⟩ := hall c hc
    obtain ⟨hwo, hlow⟩ := hzchars c hmem
    rcases hwo with h1 | h1
    · exact ⟨h1, hlow⟩
    · rw [h1] at hnws; exact absurd hnws (by simp)
  have hmapp : ∀ t ∈ (wsTokens z).map lem,
      t ≠ [] ∧ ∀ c ∈ t, isWordChar c = true ∧ c.toLower = c := by
    intro t ht
    obtain ⟨u, hu, rfl⟩ := List.mem_map.mp ht
    obtain ⟨h1, h2, _⟩ := hlem u (hts0p u hu).1 (hts0p u hu).2
    exact ⟨h1, h2⟩
  have hpre : preprocess_tweet lem x = joinTok ((wsTokens z).map lem) := by
    show stripWs (collapseWs (joinTok ((wsTokens z).map lem))) = _
    rw [collapseWs_joinTok _ (goodToks_of_wordToks hmapp),
      stripWs_joinTok _ (goodToks_of_wordToks hmapp)]
  refine ⟨(wsTokens z).map lem, hmapp, hpre, ?_, ?_⟩
  · rw [hpre, wsTokens_joinTok _ (goodToks_of_wordToks hmapp)]
  · rw [List.map_map]
    apply List.map_congr_left
    intro t ht
    have := (hlem t (hts0p t ht).1 (hts0p t ht).2).2.2
    simpa [Function.comp] using this

/-- Every character of the normalizer's output is a word character or a
single space. -/
theorem preprocess_chars (lem : List Char → List Char) (hlem : GoodLemma lem)
    (x : List Char) :
    ∀ c ∈ preprocess_tweet lem x, isWordChar c = true ∨ c = ' ' := by
  obtain ⟨ts, hts, hpre, -, -⟩ := preprocess_structure lem hlem x
  intro c hc
  rw [hpre] at hc
  rcases mem_joinTok hc with h | ⟨t, ht, hct⟩
  · exact Or.inr h
  · exact Or.inl ((hts t ht).2 c hct).1

/-- Text whose characters are word characters or spaces contains no
`@\w+|#\w+` match. -/
theorem noMention_of_wordSpace {y : List Char}
    (hy : ∀ c ∈ y, isWordChar c = true ∨ c = ' ') :
    y.tails.any (fun t => mentionMatchLen t != 0) = false := by
  rw [List.any_eq_false]
  intro t ht
  simp only [bne_iff_ne, ne_eq, Decidable.not_not]
  match t with
  | [] => rfl
  | c :: cs =>
    have hcy : c ∈ y := by
      have hsub : (c :: cs).Sublist y := (List.mem_tails _ _ |>.mp ht).sublist
      exact hsub.subset (by simp)
    have hc : isWordChar c = true ∨ c = ' ' := hy c hcy
    have hat : ¬(c = '@' ∨ c = '#') := by
      rintro (rfl | rfl) <;> revert hc <;> decide
    simp only [mentionMatchLen]
    rw [if_neg (by simpa using hat)]

/-! ### Claims C4 and C5: guarantees of the normalizer -/

/-- Claim C4, amended: for every raw input (and any lemmatizer
satisfying the `GoodLemma` contract of the external WordNet
lemmatizer), the output of `preprocess_tweet` contains no `@mention` or
`#hashtag` match and no punctuation character: every character is a
word character or a space.  The original claim's additional "no URL
substring" guarantee is false (see the counterexample): the URL filter
runs first and is case-sensitive, so a URL-shaped word-character token
can survive into the output. -/
theorem preprocess_no_mention_no_punct (lem : List Char → List Char)
    (hlem : GoodLemma lem) (x : List Char) :
    (preprocess_tweet lem x).all (fun c => isWordChar c || c == ' ') = true ∧
    hasMentionSub (preprocess_tweet lem x) = false := by
  have hchars := preprocess_chars lem hlem x
  constructor
  · rw [List.all_eq_true]
    intro c hc
    rcases hchars c hc with h | rfl
    · simp [h]
    · simp
  · unfold hasMentionSub
    exact noMention_of_wordSpace hchars

/-- Claim C4, counterexample: on the raw input `"HTTPx"` the normalizer
outputs `"httpx"`, which matches the source's own URL pattern
`http\S+` — the output is not URL-free.  (The WordNet lemmatizer fixes
the out-of-vocabulary token `httpx`, so the identity lemmatizer is
faithful here.) -/
theorem preprocess_url_cex : hasUrlSub (preprocess_tweet id "HTTPx".data) = true := by
  decide

/-- Claim C4, witness at a concrete input. -/
theorem preprocess_no_mention_no_punct_witness :
    (preprocess_tweet id "Hi @you #tag!".data).all (fun c => isWordChar c || c == ' ') = true ∧
    hasMentionSub (preprocess_tweet id "Hi @you #tag!".data) = false :=
  preprocess_no_mention_no_punct id GoodLemma_id "Hi @you #tag!".data

/-- Claim C5, amended: `preprocess_tweet` is idempotent on every input
whose normalized output contains no URL-pattern match (and for any
lemmatizer satisfying the external lemmatizer's `GoodLemma` contract).
Unrestricted idempotence is false (see the counterexample): a second
pass re-runs the case-sensitive URL filter on the now-lowercased text
and can delete a surviving URL-shaped token. -/
theorem preprocess_idem_of_noUrl (lem : List Char → List Char) (hlem : GoodLemma lem)
    (x : List Char) (hurl : hasUrlSub (preprocess_tweet lem x) = false) :
    preprocess_tweet lem (preprocess_tweet lem x) = preprocess_tweet lem x := by
  obtain ⟨ts, hts, hpre, htok, hmap⟩ := preprocess_structure lem hlem x
  set y := preprocess_tweet lem x with hy
  have hcharsL : ∀ c ∈ y, (isWordChar c = true ∧ c.toLower = c) ∨ c = ' ' := by
    intro c hc
    rw [hpre] at hc
    rcases mem_joinTok hc with h | ⟨t, ht, hct⟩
    · exact Or.inr h
    · exact Or.inl ((hts t ht).2 c hct)
  have hchars : ∀ c ∈ y, isWordChar c = true ∨ c = ' ' := by
    intro c hc
    rcases hcharsL c hc with ⟨h, -⟩ | h
    · exact Or.inl h
    · exact Or.inr h
  have h1 : removeUrls y = y := by
    unfold removeUrls
    exact scanRemove_of_noMatch _ _ _ (by simpa [hasUrlSub] using hurl)
  have h2 : removeMentions y = y := by
    unfold removeMentions
    exact scanRemove_of_noMatch _ _ _ (noMention_of_wordSpace hchars)
  have h3 : keepWordWs y = y := by
    apply List.filter_eq_self.mpr
    intro c hc
    rcases hchars c hc with h | rfl
    · simp [h]
    · decide
  have h4 : y.map Char.toLower = y := by
    apply map_eq_self_of_fix
    intro c hc
    rcases hcharsL c hc with ⟨-, h⟩ | rfl
    · exact h
    · decide
  show stripWs (collapseWs (joinTok
    ((wsTokens ((keepWordWs (removeMentions (removeUrls y))).map Char.toLower)).map lem))) = y
  rw [h1, h2, h3, h4, htok, hmap,
    collapseWs_joinTok _ (goodToks_of_wordToks hts),
    stripWs_joinTok _ (goodToks_of_wordToks hts)]
  exact hpre.symm

/-- Claim C5, counterexample: on `"WWWx"` the first pass outputs
`"wwwx"` (the case-sensitive URL filter does not fire), and a second
pass deletes `wwwx` as a `www\S+` match — normalize of normalize is the
empty string, not `"wwwx"`. -/
theorem preprocess_idem_cex :
    preprocess_tweet id (preprocess_tweet id "WWWx".data) ≠
      preprocess_tweet id "WWWx".data := by
  decide

/-- Claim C5, witness at a concrete input. -/
theorem preprocess_idem_witness :
    preprocess_tweet id (preprocess_tweet id "Nice Day".data) =
      preprocess_tweet id "Nice Day".data :=
  preprocess_idem_of_noUrl id GoodLemma_id "Nice Day".data (by decide)

/-! ### Claim C1: upsert is insert-or-replace by PostID -/

/-- Claim C1: upserting two records with the same `TweetID` and
different scores, in order, leaves exactly one row for that id — the
second record, carrying the second (latest) score — whatever the prior
store state. -/
theorem upsert_twice_latest (db : List Record) (r₁ r₂ : Record)
    (hid : r₁.tweetId = r₂.tweetId) (_hs : r₁.score ≠ r₂.score) :
    (upsert (upsert db r₁) r₂).filter (fun q => q.tweetId = r₂.tweetId) = [r₂] := by
  have hmain : upsert (upsert db r₁) r₂ =
      ((db.filter (fun q => q.tweetId ≠ r₁.tweetId)).filter
        (fun q => q.tweetId ≠ r₂.tweetId)) ++ [r₂] := by
    unfold upsert
    rw [List.filter_append]
    simp [List.filter_cons, hid]
  rw [hmain, List.filter_append]
  have h0 : ((db.filter (fun q => q.tweetId ≠ r₁.tweetId)).filter
      (fun q => q.tweetId ≠ r₂.tweetId)).filter (fun q => q.tweetId = r₂.tweetId) = [] := by
    rw [List.filter_eq_nil_iff]
    intro a ha
    have h2 := (List.mem_filter.mp ha).2
    simp only [decide_eq_true_eq] at h2 ⊢
    exact h2
  rw [h0]
  simp [List.filter_cons]

/-- Claim C1, witness. -/
theorem upsert_twice_latest_witness :
    (upsert (upsert [] ⟨"1".data, "t".data, "POSITIVE".data, 0, 5⟩)
        ⟨"1".data, "t".data, "NEGATIVE".data, 1, 6⟩).filter
      (fun q => q.tweetId = ("1".data : List Char)) =
      [⟨"1".data, "t".data, "NEGATIVE".data, 1, 6⟩] :=
  upsert_twice_latest [] ⟨"1".data, "t".data, "POSITIVE".data, 0, 5⟩
    ⟨"1".data, "t".data, "NEGATIVE".data, 1, 6⟩ rfl (by decide)

/-! ### Claims C2, C3, C9: the per-row loop -/

/-- A row whose normalized text is empty leaves the loop state — store,
result list and clock — unchanged. -/
theorem processRow_empty (nlp : List Char → Option (List Char × Rat)) (clock : Nat → Int)
    (lem : List Char → List Char) (st : PState) (row : Row)
    (h : preprocess_tweet lem row.text = []) :
    processRow nlp clock lem st row = st := by
  simp [processRow, h]

/-- A row whose classifier call raises leaves the loop state unchanged. -/
theorem processRow_err (nlp : List Char → Option (List Char × Rat)) (clock : Nat → Int)
    (lem : List Char → List Char) (st : PState) (row : Row)
    (hne : preprocess_tweet lem row.text ≠ [])
    (hnlp : nlp (preprocess_tweet lem row.text) = none) :
    processRow nlp clock lem st row = st := by
  simp [processRow, hne, hnlp]

/-- Rows added to the store by one loop iteration carry the row's
(nonempty) normalized text; all other rows were already present. -/
theorem processRow_db_mem (nlp : List Char → Option (List Char × Rat)) (clock : Nat → Int)
    (lem : List Char → List Char) (st : PState) (row : Row) :
    ∀ r ∈ (processRow nlp clock lem st row).db, r ∈ st.db ∨ r.text ≠ [] := by
  intro r hr
  by_cases hc : preprocess_tweet lem row.text = []
  · rw [processRow_empty nlp clock lem st row hc] at hr
    exact Or.inl hr
  · rcases hnlp : nlp (preprocess_tweet lem row.text) with - | ⟨label, score⟩
    · rw [processRow_err nlp clock lem st row hc hnlp] at hr
      exact Or.inl hr
    · simp only [processRow, hc, hnlp, if_false, reduceIte] at hr
      unfold upsert at hr
      rcases List.mem_append.mp hr with h | h
      · exact Or.inl (List.mem_filter.mp h).1
      · rcases List.mem_cons.mp h with rfl | h
        · exact Or.inr hc
        · simp at h

theorem foldl_db_invariant (nlp : List Char → Option (List Char × Rat)) (clock : Nat → Int)
    (lem : List Char → List Char) (db0 : List Record) :
    ∀ (rows : List Row) (st : PState),
    (∀ r ∈ st.db, r ∈ db0 ∨ r.text ≠ []) →
    ∀ r ∈ (rows.foldl (processRow nlp clock lem) st).db, r ∈ db0 ∨ r.text ≠ [] := by
  intro rows
  induction rows with
  | nil => intro st h; simpa using h
  | cons row rows ih =>
    intro st h
    rw [List.foldl_cons]
    apply ih
    intro r hr
    rcases processRow_db_mem nlp clock lem st row r hr with h1 | h1
    · exact h r h1
    · exact Or.inr h1

/-- Claim C2: `process_dataset` never persists a record with empty
normalized text — every row of the final store was either already in
the initial store or has nonempty text — and a sampled row whose text
normalizes to empty is skipped with the whole loop state (store, result
list, clock) unchanged. -/
theorem process_no_empty_text (nlp : List Char → Option (List Char × Rat))
    (clock : Nat → Int) (lem : List Char → List Char) (src : List Row)
    (maxTweets : Nat) (db0 : List Record) :
    (∀ r ∈ (process_dataset nlp clock lem src maxTweets db0).db,
      r ∈ db0 ∨ r.text ≠ []) ∧
    (∀ (st : PState) (row : Row), preprocess_tweet lem row.text = [] →
      processRow nlp clock lem st row = st) := by
  constructor
  · exact foldl_db_invariant nlp clock lem db0 (sampledRows src maxTweets)
      ⟨db0, [], 0⟩ (fun r hr => Or.inl hr)
  · exact fun st row h => processRow_empty nlp clock lem st row h

/-- Claim C2, witness: the empty-normalized row `"!!!"` is skipped. -/
theorem process_no_empty_text_witness :
    processRow (fun _ => some ("LABEL_1".data, 1)) (fun n => (n : Int)) id
      ⟨[], [], 0⟩ ⟨"9".data, "!!!".data⟩ = ⟨[], [], 0⟩ :=
  (process_no_empty_text (fun _ => some ("LABEL_1".data, 1)) (fun n => (n : Int)) id [] 0 []).2
    ⟨[], [], 0⟩ ⟨"9".data, "!!!".data⟩ (by decide)

/-- A successfully processed row: nonempty normalized text and a
classifier answer. -/
def rowSucc (nlp : List Char → Option (List Char × Rat))
    (lem : List Char → List Char) (row : Row) : Bool :=
  !rowEmpty lem row && (nlp (preprocess_tweet lem row.text)).isSome

theorem processRow_out_length (nlp : List Char → Option (List Char × Rat))
    (clock : Nat → Int) (lem : List Char → List Char) (st : PState) (row : Row) :
    (processRow nlp clock lem st row).out.length =
      st.out.length + (if rowSucc nlp lem row then 1 else 0) := by
  by_cases hc : preprocess_tweet lem row.text = []
  · rw [processRow_empty nlp clock lem st row hc]
    simp [rowSucc, rowEmpty, hc]
  · rcases hnlp : nlp (preprocess_tweet lem row.text) with - | ⟨label, score⟩
    · rw [processRow_err nlp clock lem st row hc hnlp]
      simp [rowSucc, rowEmpty, hc, hnlp]
    · simp [processRow, hc, hnlp, rowSucc, rowEmpty]

theorem foldl_out_length (nlp : List Char → Option (List Char × Rat))
    (clock : Nat → Int) (lem : List Char → List Char) :
    ∀ (rows : List Row) (st : PState),
    ((rows.foldl (processRow nlp clock lem) st).out).length =
      st.out.length + rows.countP (rowSucc nlp lem) := by
  intro rows
  induction rows with
  | nil => intro st; simp
  | cons row rows ih =>
    intro st
    rw [List.foldl_cons, ih, List.countP_cons]
    have := processRow_out_length nlp clock lem st row
    by_cases h : rowSucc nlp lem row
    · simp [h] at this ⊢; omega
    · simp [h] at this ⊢; omega

/-- Each sampled row is exactly one of: skipped as empty, skipped as a
classifier error, or successfully processed. -/
theorem count_partition (nlp : List Char → Option (List Char × Rat))
    (lem : List Char → List Char) :
    ∀ rows : List Row,
    rows.countP (rowSucc nlp lem) + rows.countP (rowEmpty lem) +
      rows.countP (rowErr nlp lem) = rows.length := by
  intro rows
  induction rows with
  | nil => simp
  | cons row rows ih =>
    simp only [List.countP_cons, List.length_cons]
    by_cases hc : preprocess_tweet lem row.text = []
    · simp [rowSucc, rowEmpty, rowErr, hc]
      omega
    · rcases hnlp : nlp (preprocess_tweet lem row.text) with - | v
      · simp [rowSucc, rowEmpty, rowErr, hc, hnlp]
        omega
      · simp [rowSucc, rowEmpty, rowErr, hc, hnlp]
        omega

/-- Claim C3: a row whose classifier call raises is skipped with the
loop state unchanged (so a bad row never aborts the batch), and the
returned list's length is the number of sampled rows minus the
empty-after-normalize rows minus the classifier-error rows. -/
theorem process_err_skip_count (nlp : List Char → Option (List Char × Rat))
    (clock : Nat → Int) (lem : List Char → List Char) (src : List Row)
    (maxTweets : Nat) (db0 : List Record) :
    (∀ (st : PState) (row : Row), preprocess_tweet lem row.text ≠ [] →
      nlp (preprocess_tweet lem row.text) = none →
      processRow nlp clock lem st row = st) ∧
    (process_dataset nlp clock lem src maxTweets db0).out.length =
      (sampledRows src maxTweets).length
        - (sampledRows src maxTweets).countP (rowEmpty lem)
        - (sampledRows src maxTweets).countP (rowErr nlp lem) := by
  constructor
  · exact fun st row h1 h2 => processRow_err nlp clock lem st row h1 h2
  · have h1 := foldl_out_length nlp clock lem (sampledRows src maxTweets) ⟨db0, [], 0⟩
    simp only [List.length_nil, Nat.zero_add] at h1
    have h2 := count_partition nlp lem (sampledRows src maxTweets)
    unfold process_dataset
    omega

/-- Claim C3, witness: a classifier that always raises leads to a
skipped row. -/
theorem process_err_skip_count_witness :
    processRow (fun _ => none) (fun n => (n : Int)) id
      ⟨[], [], 0⟩ ⟨"9".data, "bad".data⟩ = ⟨[], [], 0⟩ :=
  (process_err_skip_count (fun _ => none) (fun n => (n : Int)) id [] 0 []).1
    ⟨[], [], 0⟩ ⟨"9".data, "bad".data⟩ (by decide) rfl

/-- Claim C9, amended: for each successfully processed row, exactly one
record is upserted into the store and exactly one is appended to the
in-memory result list, and the two agree on identifier, normalized
text, sentiment label and score; their `Timestamp` fields are two
successive wall-clock readings (`int(time.time())` is called once for
the SQL insert and again for the appended dict), so they coincide only
when the clock does not advance between the two calls.  Field-for-field
equality including `Timestamp`, as originally claimed, fails (see the
counterexample). -/
theorem processRow_success_record (nlp : List Char → Option (List Char × Rat))
    (clock : Nat → Int) (lem : List Char → List Char) (st : PState) (row : Row)
    (label : List Char) (score : Rat)
    (hne : preprocess_tweet lem row.text ≠ [])
    (hnlp : nlp (preprocess_tweet lem row.text) = some (label, score)) :
    processRow nlp clock lem st row =
      ⟨upsert st.db ⟨row.id, preprocess_tweet lem row.text, labelMap label, score,
          clock st.clockIdx⟩,
        st.out ++ [⟨row.id, preprocess_tweet lem row.text, labelMap label, score,
          clock (st.clockIdx + 1)⟩],
        st.clockIdx + 2⟩ := by
  simp [processRow, hne, hnlp]

/-- Claim C9, counterexample: with a wall clock that advances one
second between the two `time.time()` calls of a successful row, the
record stored in SQLite and the record appended to the returned list
differ in their `Timestamp` field. -/
theorem process_record_mismatch_cex :
    (process_dataset (fun _ => some ("LABEL_2".data, 1)) (fun n => (n : Int)) id
        [⟨"7".data, "good".data⟩] 1 []).db =
      [⟨"7".data, "good".data, "POSITIVE".data, 1, 0⟩] ∧
    (process_dataset (fun _ => some ("LABEL_2".data, 1)) (fun n => (n : Int)) id
        [⟨"7".data, "good".data⟩] 1 []).out =
      [⟨"7".data, "good".data, "POSITIVE".data, 1, 1⟩] ∧
    (⟨"7".data, "good".data, "POSITIVE".data, 1, 0⟩ : Record) ≠
      ⟨"7".data, "good".data, "POSITIVE".data, 1, 1⟩ := by
  decide

/-- Claim C9, witness: the per-row equation applied at a concrete
successful row. -/
theorem processRow_success_record_witness :
    (processRow (fun _ => some ("LABEL_2".data, 1)) (fun n => (n : Int)) id
      ⟨[], [], 0⟩ ⟨"7".data, "good".data⟩).out.length = 1 := by
  rw [processRow_success_record (fun _ => some ("LABEL_2".data, 1)) (fun n => (n : Int)) id
    ⟨[], [], 0⟩ ⟨"7".data, "good".data⟩ "LABEL_2".data 1 (by decide) rfl]
  decide

/-! ### Claim C6: deterministic sampling -/

theorem sampleGo_mem :
    ∀ (n s : Nat) (pool : List Row), ∀ r ∈ sampleGo s n pool, r ∈ pool := by
  intro n
  induction n with
  | zero => intro s pool r hr; simp [sampleGo] at hr
  | succ n ih =>
    intro s pool r hr
    match pool with
    | [] => simp [sampleGo] at hr
    | p :: pool =>
      simp only [sampleGo, List.mem_cons] at hr
      rcases hr with hr | hr
      · subst hr
        have hi : s % (p :: pool).length < (p :: pool).length :=
          Nat.mod_lt _ (by simp)
        rw [List.getD_eq_getElem _ _ hi]
        exact List.getElem_mem hi
      · have := ih (lcgNext s) _ r hr
        exact (List.eraseIdx_sublist _ _).subset this

theorem sampleGo_length :
    ∀ (n s : Nat) (pool : List Row),
    (sampleGo s n pool).length = min n pool.length := by
  intro n
  induction n with
  | zero => intro s pool; simp [sampleGo]
  | succ n ih =>
    intro s pool
    match pool with
    | [] => simp [sampleGo]
    | p :: pool =>
      simp only [sampleGo, List.length_cons]
      rw [ih (lcgNext s) _]
      rw [List.length_eraseIdx]
      simp only [List.length_cons]
      rw [if_pos (show s % (pool.length + 1) < pool.length + 1 from Nat.mod_lt _ (by omega))]
      omega

/-- Claim C6: the sampled subset of `process_dataset` is a function of
the source corpus and the limit alone — two runs with equal sources and
equal limits draw the same identifier sequence, whatever their
classifier, clock or lemmatizer (none of which `sampledRows` reads) —
and it consists of `min N |src|` rows of the source. -/
theorem sampled_deterministic (src₁ src₂ : List Row) (n₁ n₂ : Nat)
    (hsrc : src₁ = src₂) (hn : n₁ = n₂) :
    (sampledRows src₁ n₁).map Row.id = (sampledRows src₂ n₂).map Row.id ∧
    (∀ r ∈ sampledRows src₁ n₁, r ∈ src₁) ∧
    (sampledRows src₁ n₁).length = min n₁ src₁.length := by
  subst hsrc
  subst hn
  refine ⟨rfl, ?_, ?_⟩
  · exact fun r hr => sampleGo_mem _ _ _ r hr
  · unfold sampledRows
    rw [sampleGo_length]
    omega

/-- Claim C6, witness at a concrete corpus and limit. -/
theorem sampled_deterministic_witness :
    (sampledRows [⟨"a".data, "x".data⟩, ⟨"b".data, "y".data⟩, ⟨"c".data, "z".data⟩] 2).map Row.id =
      (sampledRows [⟨"a".data, "x".data⟩, ⟨"b".data, "y".data⟩, ⟨"c".data, "z".data⟩] 2).map Row.id ∧
    (sampledRows [⟨"a".data, "x".data⟩, ⟨"b".data, "y".data⟩, ⟨"c".data, "z".data⟩] 2).length =
      min 2 ([(⟨"a".data, "x".data⟩ : Row), ⟨"b".data, "y".data⟩, ⟨"c".data, "z".data⟩] : List Row).length :=
  ⟨(sampled_deterministic _ _ 2 2 rfl rfl).1, (sampled_deterministic
    [⟨"a".data, "x".data⟩, ⟨"b".data, "y".data⟩, ⟨"c".data, "z".data⟩]
    [⟨"a".data, "x".data⟩, ⟨"b".data, "y".data⟩, ⟨"c".data, "z".data⟩] 2 2 rfl rfl).2.2⟩

/-! ### Claims C7 and C8: the dashboard read query -/

theorem insertByTs_perm (r : Record) :
    ∀ l : List Record, (insertByTs r l).Perm (r :: l) := by
  intro l
  induction l with
  | nil => simp [insertByTs]
  | cons q qs ih =>
    simp only [insertByTs]
    by_cases h : q.timestamp ≤ r.timestamp
    · rw [if_pos h]
    · rw [if_neg h]
      exact (List.Perm.cons q ih).trans (List.Perm.swap r q qs)

theorem sortDescTs_perm : ∀ l : List Record, (sortDescTs l).Perm l := by
  intro l
  induction l with
  | nil => simp [sortDescTs]
  | cons r rs ih =>
    simp only [sortDescTs]
    exact (insertByTs_perm r (sortDescTs rs)).trans ((List.perm_cons r).mpr ih)

theorem insertByTs_sorted (r : Record) :
    ∀ l : List Record, List.Pairwise (fun a b => b.timestamp ≤ a.timestamp) l →
    List.Pairwise (fun a b => b.timestamp ≤ a.timestamp) (insertByTs r l) := by
  intro l
  induction l with
  | nil => intro _; simp [insertByTs]
  | cons q qs ih =>
    intro h
    rw [List.pairwise_cons] at h
    simp only [insertByTs]
    by_cases hle : q.timestamp ≤ r.timestamp
    · rw [if_pos hle, List.pairwise_cons]
      refine ⟨fun x hx => ?_, List.pairwise_cons.mpr h⟩
      rcases List.mem_cons.mp hx with rfl | hx
      · exact hle
      · exact le_trans (h.1 x hx) hle
    · rw [if_neg hle, List.pairwise_cons]
      refine ⟨fun x hx => ?_, ih h.2⟩
      rcases List.mem_cons.mp ((insertByTs_perm r qs).mem_iff.mp hx) with rfl | hx2
      · exact le_of_not_le hle
      · exact h.1 x hx2

theorem sortDescTs_sorted : ∀ l : List Record,
    List.Pairwise (fun a b => b.timestamp ≤ a.timestamp) (sortDescTs l) := by
  intro l
  induction l with
  | nil => simp [sortDescTs]
  | cons r rs ih => exact insertByTs_sorted r _ ih

/-- The two-row example store of the specification (`t1 = 10`,
`t2 = 20`, so row 2 is the more recent). -/
def exampleRow1 : Record := ⟨"1".data, "great day".data, "POSITIVE".data, mkRat 9 10, 10⟩

def exampleRow2 : Record := ⟨"2".data, "bad day".data, "NEGATIVE".data, mkRat 8 10, 20⟩

def exampleDb : List Record := [exampleRow1, exampleRow2]

/-- Claim C7: the query returns exactly the rows matching every
supplied filter (absent filters match all rows), ordered by descending
timestamp, truncated to `limit`; and on the specification's two-row
example store the POSITIVE filter returns exactly row 1 while keyword
"day" returns both rows most recent first. -/
theorem fetch_query_semantics (db : List Record) (limit : Nat)
    (sf kw : Option (List Char)) :
    (∀ r ∈ fetch_sqlite_data db limit sf kw, r ∈ db ∧ rowCond sf kw r = true) ∧
    List.Pairwise (fun a b => b.timestamp ≤ a.timestamp)
      (fetch_sqlite_data db limit sf kw) ∧
    (fetch_sqlite_data db limit sf kw).length =
      min limit (db.filter (rowCond sf kw)).length ∧
    ((db.filter (rowCond sf kw)).length ≤ limit →
      ∀ r ∈ db, rowCond sf kw r = true → r ∈ fetch_sqlite_data db limit sf kw) ∧
    fetch_sqlite_data exampleDb 10 (some "POSITIVE".data) none = [exampleRow1] ∧
    fetch_sqlite_data exampleDb 10 none (some "day".data) = [exampleRow2, exampleRow1] := by
  refine ⟨?_, ?_, ?_, ?_, by decide, by decide⟩
  · intro r hr
    have h1 : r ∈ sortDescTs (db.filter (rowCond sf kw)) :=
      (List.take_sublist _ _).subset hr
    have h2 := (sortDescTs_perm _).mem_iff.mp h1
    exact ⟨(List.mem_filter.mp h2).1, (List.mem_filter.mp h2).2⟩
  · exact List.Pairwise.sublist (List.take_sublist _ _) (sortDescTs_sorted _)
  · unfold fetch_sqlite_data
    rw [List.length_take, (sortDescTs_perm _).length_eq]
  · intro hlen r hmem hcond
    unfold fetch_sqlite_data
    rw [List.take_of_length_le (by rw [(sortDescTs_perm _).length_eq]; exact hlen)]
    exact (sortDescTs_perm _).mem_iff.mpr (List.mem_filter.mpr ⟨hmem, hcond⟩)

/-- Claim C7, witness. -/
theorem fetch_query_semantics_witness :
    exampleRow1 ∈ fetch_sqlite_data exampleDb 10 (some "POSITIVE".data) none :=
  (fetch_query_semantics exampleDb 10 (some "POSITIVE".data) none).2.2.2.1
    (by decide) exampleRow1 (by decide) (by decide)

/-- Claim C8: a query against an empty store (the table exists but has
no rows) returns the empty list, for every limit and every filter
combination; the model of the read path is a total function, so no
error is raised. -/
theorem fetch_empty_store (limit : Nat) (sf kw : Option (List Char)) :
    fetch_sqlite_data [] limit sf kw = [] := by
  simp [fetch_sqlite_data, sortDescTs]

/-! ### Claim C10: the keyword filter is ASCII-case-insensitive LIKE -/

theorem likeGo_succ_pct (fuel : Nat) (ps t : List Char) :
    likeGo (fuel + 1) ('%' :: ps) t =
      (likeGo fuel ps t ||
        (match t with | [] => false | _ :: ts => likeGo fuel ('%' :: ps) ts)) := rfl

theorem likeGo_succ_lit (fuel : Nat) (p0 : Char) (ps t : List Char) (hp : ¬p0 = '%') :
    likeGo (fuel + 1) (p0 :: ps) t =
      (match t with
       | [] => false
       | c :: ts => (p0 = '_' || likeCharEq p0 c) && likeGo fuel ps ts) := by
  simp only [likeGo]
  rw [if_neg hp]

theorem likeGo_fuel_succ :
    ∀ (fuel : Nat) (p t : List Char), p.length + t.length < fuel →
    likeGo (fuel + 1) p t = likeGo fuel p t := by
  intro fuel
  induction fuel with
  | zero => intro p t h; omega
  | succ fuel ih =>
    intro p t h
    match p with
    | [] => rfl
    | p0 :: ps =>
      by_cases hp : p0 = '%'
      · subst hp
        rw [likeGo_succ_pct, likeGo_succ_pct]
        rw [ih ps t (by simp at h ⊢; omega)]
        match t with
        | [] => rfl
        | c :: ts =>
          simp only []
          rw [ih ('%' :: ps) ts (by simp at h ⊢; omega)]
      · rw [likeGo_succ_lit _ _ _ _ hp, likeGo_succ_lit _ _ _ _ hp]
        match t with
        | [] => rfl
        | c :: ts =>
          simp only []
          rw [ih ps ts (by simp at h ⊢; omega)]

theorem likeGo_eq_likeMatch :
    ∀ (fuel : Nat) (p t : List Char), p.length + t.length < fuel →
    likeGo fuel p t = likeMatch p t := by
  intro fuel
  induction fuel with
  | zero => intro p t h; omega
  | succ fuel ih =>
    intro p t h
    by_cases hf : p.length + t.length < fuel
    · rw [likeGo_fuel_succ fuel p t hf, ih p t hf]
    · have hfe : fuel = p.length + t.length := by omega
      subst hfe
      rfl

theorem likeMatch_pct_nil_t (ps : List Char) :
    likeMatch ('%' :: ps) [] = likeMatch ps [] := by
  have h1 : likeMatch ('%' :: ps) [] =
      (likeGo (('%' :: ps).length + ([] : List Char).length) ps [] || false) := rfl
  rw [h1, likeGo_eq_likeMatch _ ps []
    (by simp only [List.length_cons, List.length_nil]; omega)]
  simp

theorem likeMatch_pct_cons (ps : List Char) (c : Char) (ts : List Char) :
    likeMatch ('%' :: ps) (c :: ts) =
      (likeMatch ps (c :: ts) || likeMatch ('%' :: ps) ts) := by
  have h1 : likeMatch ('%' :: ps) (c :: ts) =
      (likeGo (('%' :: ps).length + (c :: ts).length) ps (c :: ts) ||
        likeGo (('%' :: ps).length + (c :: ts).length) ('%' :: ps) ts) := rfl
  rw [h1, likeGo_eq_likeMatch _ ps (c :: ts)
      (by simp only [List.length_cons]; omega),
    likeGo_eq_likeMatch _ ('%' :: ps) ts
      (by simp only [List.length_cons]; omega)]

theorem likeMatch_lit_cons (p0 : Char) (ps : List Char) (c : Char) (ts : List Char)
    (hp : ¬p0 = '%') :
    likeMatch (p0 :: ps) (c :: ts) =
      ((p0 = '_' || likeCharEq p0 c) && likeMatch ps ts) := by
  have h1 : likeMatch (p0 :: ps) (c :: ts) =
      likeGo ((p0 :: ps).length + (c :: ts).length + 1) (p0 :: ps) (c :: ts) := rfl
  rw [h1, likeGo_succ_lit _ _ _ _ hp]
  show ((p0 = '_' || likeCharEq p0 c) &&
    likeGo ((p0 :: ps).length + (c :: ts).length) ps ts) = _
  rw [likeGo_eq_likeMatch _ ps ts (by simp only [List.length_cons]; omega)]

theorem likeMatch_pct_all : ∀ t : List Char, likeMatch ['%'] t = true := by
  intro t
  induction t with
  | nil => decide
  | cons c ts ih =>
    rw [likeMatch_pct_cons]
    simp [ih]

theorem likeMatch_pct_any (p t : List Char) (h : likeMatch p t = true) :
    likeMatch ('%' :: p) t = true := by
  match t with
  | [] =>
    rw [likeMatch_pct_nil_t]
    exact h
  | c :: ts =>
    rw [likeMatch_pct_cons]
    simp [h]

theorem likeMatch_skip (p t : List Char) (c : Char) (h : likeMatch p t = true) :
    likeMatch ('%' :: p) (c :: t) = true := by
  rw [likeMatch_pct_cons]
  simp [likeMatch_pct_any p t h]

theorem likeMatch_ciPre : ∀ (kw s : List Char), ciPre kw s = true →
    likeMatch (kw ++ ['%']) s = true := by
  intro kw
  induction kw with
  | nil => intro s _; exact likeMatch_pct_all s
  | cons k ks ih =>
    intro s hci
    match s with
    | [] => simp [ciPre] at hci
    | c :: cs =>
      simp only [ciPre, Bool.and_eq_true] at hci
      by_cases hk : k = '%'
      · subst hk
        exact likeMatch_skip _ cs c (ih cs hci.2)
      · rw [List.cons_append, likeMatch_lit_cons k _ c cs hk]
        rw [ih cs hci.2]
        simp [hci.1]

theorem sqlLike_of_containsCI : ∀ (text kw : List Char),
    containsCI text kw = true → sqlLikeContains kw text = true := by
  intro text
  induction text with
  | nil =>
    intro kw h
    simp only [containsCI, List.tails, List.any_cons, List.any_nil, Bool.or_false] at h
    match kw with
    | [] => decide
    | k :: ks => simp [ciPre] at h
  | cons c ts ih =>
    intro kw h
    simp only [containsCI, List.tails_cons, List.any_cons] at h
    rcases (Bool.or_eq_true _ _).mp h with h1 | h1
    · unfold sqlLikeContains
      rw [likeMatch_pct_cons]
      rw [likeMatch_ciPre kw (c :: ts) h1]
      simp
    · have hrec := ih kw (by simpa [containsCI] using h1)
      unfold sqlLikeContains at hrec ⊢
      rw [likeMatch_pct_cons]
      simp [hrec]

/-- Claim C10: the keyword filter of the read query is SQLite
`Text LIKE '%keyword%'`, an ASCII-case-insensitive match: every row
whose `Text` contains the keyword up to ASCII case folding satisfies
the keyword filter (and hence the full WHERE clause when no sentiment
filter is supplied). -/
theorem keyword_filter_ci (text kw : List Char) (h : containsCI text kw = true) :
    sqlLikeContains kw text = true ∧
    rowCond none (some kw) ⟨[], text, [], 0, 0⟩ = true := by
  have h1 := sqlLike_of_containsCI text kw h
  refine ⟨h1, ?_⟩
  simp [rowCond, optTruthy, h1]

/-- Claim C10, witness: keyword `"DAY"` is found in `"great day"`. -/
theorem keyword_filter_ci_witness :
    sqlLikeContains "DAY".data "great day".data = true ∧
    rowCond none (some "DAY".data) ⟨[], "great day".data, [], 0, 0⟩ = true :=
  keyword_filter_ci "great day".data "DAY".data (by decide)
